import Mathlib

/-!
Verification of the mattress-recommendation retrieval engine.

This file is a shallow embedding of the Python sources
`src/data_loader.py`, `src/rag_system.py` and `src/ai_agent.py`:

* Python strings are modelled as `List Char` (`Str`); `str.strip`,
  `str.lower`, `str.split`, `', '.join` and substring containment are
  modelled char-by-char.
* Python floats are modelled as rationals (`Rat`); `round` is modelled as
  round-half-to-even (`pyRound`), matching Python 3 `round` semantics.
* External collaborators (the sentence-transformer encoder, the Chroma
  vector store, the OpenAI client, and the MD5 hex digest) are modelled as
  function parameters that the theorems quantify over.  Deterministic text
  transformations whose internals no claim depends on
  (`normalize_text`, `create_gpt_enhanced_text`, the search-text builder)
  are likewise passed as parameters.
* Dictionaries with insertion order (Python 3.7+) are modelled as
  association lists, and the stable `list.sort(key=..., reverse=True)` is
  modelled by `stableSort` with the reversed comparison: both are stable
  sorts for the same comparison, hence the same function.
* The per-record `try/except` recovery paths of `preprocess_for_rag` and
  `search_mattresses` are not modelled: in the embedding no operation can
  raise.  The in-process memoisation caches (embedding cache, synonym
  cache, relevance cache) memoise pure functions and are dropped.
-/

/-! ## Characters and strings (`List Char` model of Python `str`) -/

/-- Python strings modelled as lists of characters. -/
abbrev Str := List Char

/-- Python `str.strip()`: drop leading and trailing whitespace. -/
def pyStrip (s : Str) : Str :=
  ((s.dropWhile Char.isWhitespace).reverse.dropWhile Char.isWhitespace).reverse

/-- Python `str.lower()` (ASCII case folding; identity on Korean). -/
def pyLower (s : Str) : Str := s.map Char.toLower

/-- Python `str.split(sep)` for a single-character separator.
`[].split` never arises, and `"".split(c) = [""]` as in Python. -/
def pySplit (sep : Char) : Str → List Str
  | [] => [[]]
  | c :: rest =>
    match pySplit sep rest with
    | [] => [[]]
    | a :: as => if c = sep then [] :: a :: as else (c :: a) :: as

/-- Strip a specific character from both ends (Python `str.strip('_')`). -/
def stripChar (x : Char) (s : Str) : Str :=
  ((s.dropWhile (· = x)).reverse.dropWhile (· = x)).reverse

/-! ## Decimal rendering of natural numbers (Python `str(int)`) -/

/-- Little-endian decimal digits of a positive number (`[]` for `0`).
The first argument is fuel making the recursion structural; any fuel
at or above the number itself is enough. -/
def natToDecAux : Nat → Nat → List Char
  | 0, _ => []
  | fuel + 1, n =>
    if n = 0 then [] else Nat.digitChar (n % 10) :: natToDecAux fuel (n / 10)

/-- Python `str(n)` for a natural number: usual decimal notation. -/
def natToDec (n : Nat) : Str :=
  if n = 0 then ['0'] else (natToDecAux n n).reverse

/-- Numeric value of a decimal digit character. -/
def decDigitVal (c : Char) : Nat := c.toNat - 48

/-- Value of a little-endian digit list; inverse of `natToDecAux`. -/
def decValAux : List Char → Nat
  | [] => 0
  | c :: cs => decDigitVal c + 10 * decValAux cs

/-! ## Catalog records and identifier assignment (`data_loader.py`) -/

/-- One loaded catalog record (an element of `self.mattresses` after
`_normalize_mattress_prices`; all fields present). -/
structure Mattress where
  name : Str
  brand : Str
  ptype : Str
  price : Rat
  priceWon : Int
  features : List Str
  targetUsers : List Str
  description : Str
deriving DecidableEq

/-- Python word characters as used by the sanitizer regex `[^\w가-힣]`:
ASCII alphanumerics, underscore, and Hangul syllables. -/
def isWordChar (c : Char) : Bool :=
  c.isAlphanum || c = '_' || ('가' ≤ c && c ≤ '힣')

/-- Collapse every run of underscores to a single underscore
(`re.sub(r'_+', '_', s)`). -/
def collapseUnders : Str → Str
  | [] => []
  | c :: rest =>
    let r := collapseUnders rest
    if c = '_' ∧ r.headD ' ' = '_' then r else c :: r

/-- Steps 1–5 of `MattressDataLoader._sanitize_id`: strip, replace
non-word characters by underscores, collapse runs of underscores, strip
underscores from the ends, and cap the length at 100 using an MD5
suffix.  `md5hex` models `hashlib.md5(...).hexdigest()`. -/
def sanitizeCore (md5hex : Str → Str) (rawId : Str) : Str :=
  let s1 := pyStrip rawId
  let s2 := s1.map (fun c => if isWordChar c then c else '_')
  let s3 := collapseUnders s2
  let s4 := stripChar '_' s3
  if 100 < s4.length then s4.take 80 ++ '_' :: (md5hex s4).take 8 else s4

/-- Step 6 of `_sanitize_id`: replace an empty result by a placeholder. -/
def sanitizeGuard (s : Str) : Str :=
  if s = [] then "mattress_unknown".toList else s

/-- Step 7 of `_sanitize_id`: prefix a result starting with a digit. -/
def sanitizeDigit (s : Str) : Str :=
  match s with
  | [] => s
  | c :: _ => if c.isDigit then "mattress_".toList ++ s else s

/-- `MattressDataLoader._sanitize_id`. -/
def sanitizeId (md5hex : Str → Str) (rawId : Str) : Str :=
  if rawId = [] then "unknown_mattress".toList
  else sanitizeDigit (sanitizeGuard (sanitizeCore md5hex rawId))

/-- The raw id `f"mattress_{brand}_{name}"` built by
`_generate_unique_id` from the stripped brand and name. -/
def baseId (m : Mattress) : Str :=
  "mattress_".toList ++ pyStrip m.brand ++ '_' :: pyStrip m.name

/-- The collision loop of `_generate_unique_id`: starting from the
sanitized id, append `_1`, `_2`, ... while the current candidate is
taken; after the counter passes 1000 fall back to an MD5-derived id.
`fuel` is only a termination bound (1001 is always enough because the
counter path gives up at 1000). -/
def genLoop (md5hex : Str → Str) (sanitized baseStr : Str)
    (existing : List Str) : Nat → Str → Nat → Str
  | _, cur, 0 => cur
  | counter, cur, fuel + 1 =>
    if cur ∈ existing then
      if 1000 < counter + 1 then
        "mattress_".toList ++ (md5hex (baseStr ++ '_' :: natToDec (counter + 1))).take 8
      else
        genLoop md5hex sanitized baseStr existing (counter + 1)
          (sanitized ++ '_' :: natToDec counter) fuel
    else cur

/-- `MattressDataLoader._generate_unique_id`. -/
def genUniqueId (md5hex : Str → Str) (m : Mattress) (existing : List Str) : Str :=
  genLoop md5hex (sanitizeId md5hex (baseId m)) (baseId m) existing
    1 (sanitizeId md5hex (baseId m)) 1001

/-- Python `sep.join(xs)`: concatenation with `sep` between elements. -/
def pyJoin (sep : Str) : List Str → Str
  | [] => []
  | [x] => x
  | x :: y :: rest => x ++ sep ++ pyJoin sep (y :: rest)

/-- `', '.join(features)` guarded by Python truthiness
(`if features else ''`). -/
def joinFeatures (fs : List Str) : Str :=
  if fs = [] then [] else pyJoin (", ").toList fs

/-- The ChromaDB metadata dictionary built in `preprocess_for_rag`
(after `_validate_metadata`, which strips every string value). -/
structure Metadata where
  name : Str
  brand : Str
  ptype : Str
  price : Rat
  priceWon : Int
  featuresText : Str
  targetUsersText : Str
  featuresCount : Nat
  targetUsersCount : Nat
deriving DecidableEq

/-- Build the metadata of one record as `preprocess_for_rag` does. -/
def mkMetadata (m : Mattress) : Metadata where
  name := pyStrip m.name
  brand := pyStrip m.brand
  ptype := pyStrip m.ptype
  price := m.price
  priceWon := m.priceWon
  featuresText := pyStrip (joinFeatures m.features)
  targetUsersText := pyStrip (joinFeatures m.targetUsers)
  featuresCount := m.features.length
  targetUsersCount := m.targetUsers.length

/-- One `(id, search_text, metadata)` item of the preprocessed snapshot. -/
structure RagItem where
  itemId : Str
  searchText : Str
  metadata : Metadata
deriving DecidableEq

/-- The main loop of `preprocess_for_rag`: assign a fresh id to each
record and collect it into `existing_ids`.  `bst` models the search-text
builder (a pure function of the record). -/
def preprocessItems (md5hex : Str → Str) (bst : Mattress → Str)
    (existing : List Str) : List Mattress → List RagItem
  | [] => []
  | m :: rest =>
    let i := genUniqueId md5hex m existing
    ⟨i, bst m, mkMetadata m⟩ :: preprocessItems md5hex bst (i :: existing) rest

/-- The contents of the `existing_ids` set after the main loop of
`preprocess_for_rag` has handled a list of records. -/
def existingAfter (md5hex : Str → Str) (existing : List Str) :
    List Mattress → List Str
  | [] => existing
  | m :: rest =>
    existingAfter md5hex (genUniqueId md5hex m existing :: existing) rest

/-- The duplicate-removal pass at the end of `preprocess_for_rag`:
keep the first item for each id. -/
def dedupeById : List RagItem → List Str → List RagItem
  | [], _ => []
  | x :: xs, seen =>
    if x.itemId ∈ seen then dedupeById xs seen
    else x :: dedupeById xs (x.itemId :: seen)

/-- `MattressDataLoader.preprocess_for_rag`. -/
def preprocessForRag (md5hex : Str → Str) (bst : Mattress → Str)
    (ms : List Mattress) : List RagItem :=
  if ms = [] then []
  else
    let items := preprocessItems md5hex bst [] ms
    if (items.map (·.itemId)).Nodup then items else dedupeById items []

/-- `MattressDataLoader.get_mattress_by_id`: regenerate each record's id
against an empty existing-id set and return the first match. -/
def getMattressById (md5hex : Str → Str) (ms : List Mattress) (mid : Str) :
    Option Mattress :=
  ms.find? (fun m => genUniqueId md5hex m [] = mid)

/-! ## Rounding (Python 3 `round`, half-to-even) -/

/-- Python `int(round(q))` on a float, modelled on rationals:
round half to even. -/
def pyRound (q : Rat) : Int :=
  let f := ⌊q⌋
  let frac := q - (f : Rat)
  if frac < 1/2 then f
  else if 1/2 < frac then f + 1
  else if f % 2 = 0 then f else f + 1

/-! ## Multi-strategy retrieval and fusion (`rag_system.py`) -/

/-- One nearest-neighbour hit of a retrieval pass, as returned by
`ChromaDBManager.search_similar` (parallel arrays flattened into a
record). -/
structure Hit where
  docId : Str
  distance : Rat
  meta : Metadata
  document : Str
deriving DecidableEq

/-- One fused-candidate accumulator entry (`all_results[doc_id]`). -/
structure Entry where
  metadata : Metadata
  document : Str
  scores : List (Str × Rat)
  totalScore : Rat
  strategyCount : Nat
deriving DecidableEq

/-- Python dict assignment `d[k] = v` on an association list: replace the
first binding of `k` in place, else append. -/
def dictInsert : List (Str × Rat) → Str → Rat → List (Str × Rat)
  | [], k, v => [(k, v)]
  | (k1, v1) :: rest, k, v =>
    if k1 = k then (k, v) :: rest else (k1, v1) :: dictInsert rest k v

/-- Apply `f` to the entry bound to `k` (first binding). -/
def updateEntry : List (Str × Entry) → Str → (Entry → Entry) → List (Str × Entry)
  | [], _, _ => []
  | (k1, e) :: rest, k, f =>
    if k1 = k then (k, f e) :: rest else (k1, e) :: updateEntry rest k f

/-- The body of the loop in `_add_weighted_results` for one hit:
create the entry on first sight, then record the weighted score under
the strategy name, add it to the total and bump the pass count. -/
def addWeightedStep (weight : Rat) (strategy : Str)
    (acc : List (Str × Entry)) (h : Hit) : List (Str × Entry) :=
  let ws := (1 - h.distance) * weight
  let acc1 := if acc.any (fun p => p.1 = h.docId) then acc
    else acc ++ [(h.docId, ⟨h.meta, h.document, [], 0, 0⟩)]
  updateEntry acc1 h.docId (fun e =>
    { e with
      scores := dictInsert e.scores strategy ws
      totalScore := e.totalScore + ws
      strategyCount := e.strategyCount + 1 })

/-- `EnhancedMattressRAGSystem._add_weighted_results`. -/
def addWeighted (acc : List (Str × Entry)) (hits : List Hit)
    (weight : Rat) (strategy : Str) : List (Str × Entry) :=
  hits.foldl (addWeightedStep weight strategy) acc

/-- Names of the three retrieval passes. -/
def strategyEnhanced : Str := "enhanced".toList

/-- Name of the expansion-only pass. -/
def strategyFewShot : Str := "few_shot".toList

/-- Name of the raw-query pass. -/
def strategyOriginal : Str := "original".toList

/-- The final-score formula of `_calculate_final_results`: average of the
weighted per-pass scores, plus the pass bonuses, clipped from above at 1. -/
def finalScore (e : Entry) : Rat :=
  let avgScore := e.totalScore / (e.strategyCount : Rat)
  let enhancementBonus :=
    (if e.scores.any (fun p => p.1 = strategyEnhanced) then 15/100 else 0) +
    (if e.scores.any (fun p => p.1 = strategyFewShot) then 1/10 else 0)
  let multiBonus := min ((e.strategyCount : Rat) * (5/100)) (15/100)
  min (avgScore + enhancementBonus + multiBonus) 1

/-- One step of `[f.strip() for f in text.split(',') if f.strip()]`:
keep the stripped piece when it is non-empty. -/
def stripKeep (f : Str) : Option Str :=
  let g := pyStrip f
  if g = [] then none else some g

/-- The reconstruction of a list-valued attribute in `_format_result`:
split the stored text on commas, strip each piece, keep the non-empty
ones (empty stored text gives the empty list). -/
def reconstructFeatures (ft : Str) : List Str :=
  if ft = [] then [] else (pySplit ',' ft).filterMap stripKeep

/-- One ranked result dictionary as built by `_format_result`. -/
structure SearchResult where
  docId : Str
  name : Str
  brand : Str
  ptype : Str
  price : Int
  priceWon : Int
  similarityScore : Rat
  searchText : Str
  features : List Str
  targetUsers : List Str
  featuresCount : Nat
  targetUsersCount : Nat
  strategiesUsed : List Str
  gptEnhanced : Bool
  enhancedSystem : Bool
deriving DecidableEq

/-- `EnhancedMattressRAGSystem._format_result`. -/
def formatResult (gptAvail : Bool) (docId : Str) (e : Entry)
    (score : Rat) : SearchResult :=
  let features := reconstructFeatures e.metadata.featuresText
  let targetUsers := reconstructFeatures e.metadata.targetUsersText
  { docId := docId
    name := e.metadata.name
    brand := e.metadata.brand
    ptype := e.metadata.ptype
    price := pyRound e.metadata.price
    priceWon := e.metadata.priceWon
    similarityScore := score
    searchText := e.document
    features := features
    targetUsers := targetUsers
    featuresCount := features.length
    targetUsersCount := targetUsers.length
    strategiesUsed := e.scores.map (·.1)
    gptEnhanced := gptAvail
    enhancedSystem := true }

/-- Comparison used to model the stable
`final_results.sort(key=lambda x: x['similarity_score'], reverse=True)`. -/
def resultDescLe (a b : SearchResult) : Bool :=
  decide (b.similarityScore ≤ a.similarityScore)

/-- Insert `x` into a sorted list, after every element that may precede
it — the insertion step of a stable sort. -/
def stableInsert (le : α → α → Bool) (x : α) : List α → List α
  | [] => [x]
  | y :: ys => if le y x then y :: stableInsert le x ys else x :: y :: ys

/-- Stable insertion sort.  Elements are processed left to right and
each lands after its equals, so this is extensionally the same function
as Python's stable `list.sort` with the corresponding comparison. -/
def stableSort (le : α → α → Bool) (l : List α) : List α :=
  l.foldl (fun acc x => stableInsert le x acc) []

/-- `EnhancedMattressRAGSystem._calculate_final_results`: budget filter,
final score, stable descending sort by score, truncation to `nResults`. -/
def calcFinal (gptAvail : Bool) (acc : List (Str × Entry))
    (budget : Option (Int × Int)) (nResults : Nat) : List SearchResult :=
  let kept := acc.filterMap (fun p =>
    match budget with
    | some (mn, mx) =>
      if p.2.metadata.price < (mn : Rat) ∨ (mx : Rat) < p.2.metadata.price
      then none
      else some (formatResult gptAvail p.1 p.2 (finalScore p.2))
    | none => some (formatResult gptAvail p.1 p.2 (finalScore p.2)))
  (stableSort resultDescLe kept).take nResults

/-- The empty-text guard at the top of `generate_embedding`
(`if not text or not text.strip(): text = "빈 텍스트"`). -/
def emptyGuard (t : Str) : Str :=
  if pyStrip t = [] then "빈 텍스트".toList else t

/-- `FewShotEnhancedEmbeddingManager.generate_few_shot_expansion`:
with no OpenAI client the original query is returned unchanged; with a
client the external completion (modelled by `f`, which also absorbs the
exception fallback) is used. -/
def generateFewShotExpansion (expandExt : Option (Str → Str)) (q : Str) : Str :=
  match expandExt with
  | none => q
  | some f => f q

/-- `GPTSynonymGenerator.generate_synonyms`: the empty list without a
client, otherwise the external result (modelled by `f`). -/
def generateSynonyms (synExt : Option (Str → List Str)) (kw : Str) : List Str :=
  match synExt with
  | none => []
  | some f => f kw

/-- `FewShotEnhancedEmbeddingManager.generate_embedding`.
`createEnh` models `create_gpt_enhanced_text`, `normF` models
`normalize_text`, `encode` models the sentence-transformer encoder. -/
def generateEmbedding (expandExt : Option (Str → Str))
    (createEnh normF : Str → Str) (encode : Str → List Rat)
    (text : Str) (useEnh : Bool) : List Rat :=
  let t := emptyGuard text
  if useEnh then encode (createEnh (generateFewShotExpansion expandExt t))
  else encode (normF t)

/-- The fused-candidate accumulator built by the three
`_add_weighted_results` calls of `search_mattresses`: pass A
(`enhanced`, weight 1.0), pass B (`few_shot`, weight 0.8), pass C
(`original`, weight 0.6). -/
def buildAcc (rA rB rC : List Hit) : List (Str × Entry) :=
  addWeighted
    (addWeighted (addWeighted [] rA 1 strategyEnhanced) rB (8/10) strategyFewShot)
    rC (6/10) strategyOriginal

/-- `EnhancedMattressRAGSystem.search_mattresses` (on an initialized
system).  `store` models `ChromaDBManager.search_similar`. -/
def searchMattresses (expandExt : Option (Str → Str))
    (createEnh normF : Str → Str) (encode : Str → List Rat)
    (store : List Rat → Nat → List Hit)
    (query : Str) (nResults : Nat) (budget : Option (Int × Int)) :
    List SearchResult :=
  let g := generateEmbedding expandExt createEnh normF encode
  let rA := store (g query true) (nResults * 2)
  let rB := store (g (generateFewShotExpansion expandExt query) false) (nResults * 2)
  let rC := store (g query false) nResults
  calcFinal expandExt.isSome (buildAcc rA rB rC) budget nResults

/-! ## Relevance gate (`ai_agent.py`, `SmartRelevanceChecker`) -/

/-- Result of `check_relevance`. -/
structure RelevanceResult where
  isRelevant : Bool
  reason : Str
  confidence : Rat
  method : Str
deriving DecidableEq

/-- The fixed allow-list `certain_keywords`. -/
def certainKeywords : List Str :=
  ["매트리스", "침대", "베드", "잠자리", "수면", "잠", "자는",
   "메모리폼", "라텍스", "스프링", "본넬", "포켓스프링",
   "싱글", "더블", "퀸", "킹사이즈", "침대사이즈",
   "베개", "이불", "침구", "침실용품", "수면용품"].map String.toList

/-- The fixed deny-list `irrelevant_keywords`. -/
def irrelevantKeywords : List Str :=
  ["배고파", "밥", "음식", "먹는", "식사", "요리", "맛있는",
   "날씨", "비", "눈", "더위", "추위", "온도", "기온",
   "영화", "드라마", "게임", "책", "소설", "만화",
   "축구", "야구", "농구", "헬스", "달리기", "운동",
   "서랍장", "옷장", "붙박이장", "화장대", "책상", "의자",
   "소파", "쇼파", "테이블", "식탁", "다이닝테이블",
   "선반", "책장", "진열장", "수납장", "신발장",
   "행거", "옷걸이", "거울", "스탠드", "조명",
   "커튼", "블라인드", "카펫", "러그", "매트",
   "쿠션", "방석", "등받이", "팔걸이",
   "냉장고", "세탁기", "에어컨", "텔레비전", "tv",
   "전자레인지", "오븐", "청소기", "공기청정기",
   "일", "직장", "회사", "업무", "회의", "출근",
   "친구", "연애", "데이트", "만남", "헤어짐",
   "여행", "휴가", "놀러", "구경", "관광",
   "학교", "공부", "시험", "숙제", "과제",
   "돈", "투자", "주식", "부동산", "대출"].map String.toList

/-- The fixed list `ambiguous_keywords` gating the GPT tier. -/
def ambiguousKeywords : List Str :=
  ["허리", "목", "어깨", "통증", "아픈", "편안", "딱딱", "부드러운",
   "가격", "추천", "브랜드", "좋은", "편안한", "시원한", "따뜻한",
   "높은", "낮은", "크기", "사이즈", "무거운", "가벼운"].map String.toList

/-- `any(keyword in query_clean for keyword in kws)`: substring test. -/
def containsAnyKw (qc : Str) (kws : List Str) : Bool :=
  kws.any (fun kw => decide (kw <:+: qc))

/-- The conservative default of `check_relevance` (tier 5). -/
def conservativeResult : RelevanceResult :=
  ⟨false, "매트리스 관련성을 확인할 수 없습니다".toList, 7/10,
   "conservative_fallback".toList⟩

/-- `SmartRelevanceChecker.check_relevance`.  `client` models the
optional GPT judge: it returns the `(is_relevant, reason, confidence)`
triple of `_gpt_relevance_check`, which already absorbs the parse and
service-failure fallbacks.  The result cache memoises this pure function
and is not modelled. -/
def checkRelevance (client : Option (Str → Bool × Str × Rat))
    (query : Str) : RelevanceResult :=
  let queryClean := pyStrip (pyLower query)
  if (pyStrip query).length < 3 then
    ⟨false, "질문이 너무 짧습니다".toList, 95/100, "length_check".toList⟩
  else if containsAnyKw queryClean certainKeywords then
    ⟨true, "매트리스 관련 키워드 발견".toList, 95/100,
     "certain_keywords".toList⟩
  else if containsAnyKw queryClean irrelevantKeywords then
    ⟨false, "매트리스와 무관한 키워드 발견".toList, 9/10,
     "irrelevant_keywords".toList⟩
  else if containsAnyKw queryClean ambiguousKeywords then
    match client with
    | some judge =>
      let r := judge query
      ⟨r.1, r.2.1, r.2.2, "gpt_check".toList⟩
    | none => conservativeResult
  else conservativeResult

/-! ## Concrete instances used by counterexamples and witnesses -/

/-- A throwaway metadata record with a given normalized price. -/
def cexMeta (p : Rat) : Metadata :=
  ⟨"m".toList, "b".toList, "t".toList, p, 0, [], [], 0, 0⟩

/-- A store whose pass C (the `k = 1` query) returns one hit at raw
distance 2, as an L2/cosine distance can be; passes A and B (`k = 2`)
return nothing. -/
def cexStoreNeg : List Rat → Nat → List Hit := fun _ k =>
  if k = 1 then [⟨"Z".toList, 2, cexMeta 50, []⟩] else []

/-- The search run refuting the lower score bound of C1. -/
def cexOutNeg : List SearchResult :=
  searchMattresses none id id (fun _ => []) cexStoreNeg "q".toList 1 none

/-- Encoder distinguishing query texts by length (C2 scenario). -/
def cexEncLen : Str → List Rat := fun s => [(s.length : Rat)]

/-- Store realising the C2 scenario: candidate X is found by all three
passes with raw similarities 0.70 / 0.65 / 0.60 (distances 0.30 / 0.35 /
0.40), candidate Y only by pass C with raw similarity 0.90. -/
def cexStoreC2 : List Rat → Nat → List Hit := fun v _ =>
  if v = [3] then [⟨"X".toList, 3/10, cexMeta 50, []⟩]
  else if v = [2] then [⟨"X".toList, 35/100, cexMeta 50, []⟩]
  else [⟨"X".toList, 4/10, cexMeta 50, []⟩, ⟨"Y".toList, 1/10, cexMeta 50, []⟩]

/-- The search run of the C2 scenario. -/
def cexOutC2 : List SearchResult :=
  searchMattresses (some (fun s => 'X' :: s)) (fun s => 'E' :: s) id
    cexEncLen cexStoreC2 ['q'] 2 none

/-- Store whose pass C returns two equal-distance hits, id `b` before
id `a` (C3 tie-breaking scenario); passes A and B return nothing. -/
def cexStoreTie : List Rat → Nat → List Hit := fun _ k =>
  if k = 2 then [⟨"b".toList, 1/2, cexMeta 50, []⟩,
                 ⟨"a".toList, 1/2, cexMeta 50, []⟩] else []

/-- The search run of the C3 tie-breaking scenario. -/
def cexOutTie : List SearchResult :=
  searchMattresses none id id (fun _ => []) cexStoreTie ['q'] 2 none

/-- Store returning two hits whose prices are 50 and 200 (C4 witness). -/
def cexStoreBudget : List Rat → Nat → List Hit := fun _ _ =>
  [⟨"P".toList, 1/2, cexMeta 50, []⟩, ⟨"Q".toList, 0, cexMeta 200, []⟩]

/-- The budget-filtered search run of the C4 witness. -/
def cexOutBudget : List SearchResult :=
  searchMattresses none id id (fun _ => []) cexStoreBudget ['q'] 2
    (some (0, 80))

/-- The surviving result of the budget-filtered run. -/
def cexResBudget : SearchResult :=
  formatResult false "P".toList
    ⟨cexMeta 50, [],
     [(strategyEnhanced, 1/2), (strategyFewShot, 2/5), (strategyOriginal, 3/10)],
     6/5, 3⟩
    (4/5)

/-- A store that always finds the same single hit (C5 scenario). -/
def cexStoreConst : List Rat → Nat → List Hit := fun _ _ =>
  [⟨"m".toList, 1/2, cexMeta 50, []⟩]

/-- A no-client search run in which the candidate is nevertheless
surfaced by all three passes (C5 scenario). -/
def cexOutNoClient : List SearchResult :=
  searchMattresses none id id (fun _ => []) cexStoreConst "매트리스".toList 1 none

/-! ## Helper lemmas: stable sort -/

theorem mem_stableInsert {le : α → α → Bool} {x a : α} {l : List α} :
    a ∈ stableInsert le x l ↔ a ∈ l ∨ a = x := by
  induction l with
  | nil => simp [stableInsert]
  | cons y ys ih =>
    simp only [stableInsert]
    split
    · simp [ih]; tauto
    · simp; tauto

theorem mem_stableSort_aux {le : α → α → Bool} {a : α} :
    ∀ (l acc : List α), a ∈ l.foldl (fun acc x => stableInsert le x acc) acc ↔
      a ∈ acc ∨ a ∈ l := by
  intro l
  induction l with
  | nil => simp
  | cons x xs ih =>
    intro acc
    simp only [List.foldl_cons, ih, mem_stableInsert, List.mem_cons]
    tauto

theorem mem_stableSort {le : α → α → Bool} {a : α} {l : List α} :
    a ∈ stableSort le l ↔ a ∈ l := by
  simp [stableSort, mem_stableSort_aux]

theorem pairwise_stableInsert {le : α → α → Bool}
    (htrans : ∀ a b c, le a b = true → le b c = true → le a c = true)
    (htotal : ∀ a b, le a b || le b a)
    {x : α} {l : List α} (h : l.Pairwise (fun a b => le a b = true)) :
    (stableInsert le x l).Pairwise (fun a b => le a b = true) := by
  induction l with
  | nil => simp [stableInsert]
  | cons y ys ih =>
    rw [List.pairwise_cons] at h
    obtain ⟨hy, hys⟩ := h
    simp only [stableInsert]
    split
    · rename_i hyx
      rw [List.pairwise_cons]
      refine ⟨?_, ih hys⟩
      intro b hb
      rcases mem_stableInsert.mp hb with hb | rfl
      · exact hy b hb
      · exact hyx
    · rename_i hyx
      rw [List.pairwise_cons]
      have hxy : le x y = true := by
        have := htotal y x
        simp [hyx] at this
        exact this
      refine ⟨?_, List.pairwise_cons.mpr ⟨hy, hys⟩⟩
      intro b hb
      rcases List.mem_cons.mp hb with rfl | hb
      · exact hxy
      · exact htrans x y b hxy (hy b hb)

theorem pairwise_stableSort_aux {le : α → α → Bool}
    (htrans : ∀ a b c, le a b = true → le b c = true → le a c = true)
    (htotal : ∀ a b, le a b || le b a) :
    ∀ (l acc : List α), acc.Pairwise (fun a b => le a b = true) →
      (l.foldl (fun acc x => stableInsert le x acc) acc).Pairwise
        (fun a b => le a b = true) := by
  intro l
  induction l with
  | nil => intro acc h; simpa using h
  | cons x xs ih =>
    intro acc h
    exact ih _ (pairwise_stableInsert htrans htotal h)

theorem pairwise_stableSort {le : α → α → Bool}
    (htrans : ∀ a b c, le a b = true → le b c = true → le a c = true)
    (htotal : ∀ a b, le a b || le b a) (l : List α) :
    (stableSort le l).Pairwise (fun a b => le a b = true) :=
  pairwise_stableSort_aux htrans htotal l [] (by simp)

/-! ## Helper lemmas: the fused-candidate accumulator -/

theorem mem_updateEntry {acc : List (Str × Entry)} {k : Str} {f : Entry → Entry}
    {p : Str × Entry} (hp : p ∈ updateEntry acc k f) :
    p ∈ acc ∨ ∃ e, (k, e) ∈ acc ∧ p = (k, f e) := by
  induction acc with
  | nil => simp [updateEntry] at hp
  | cons q rest ih =>
    obtain ⟨k1, e⟩ := q
    simp only [updateEntry] at hp
    split at hp
    · rename_i hk
      rcases List.mem_cons.mp hp with rfl | hp
      · exact Or.inr ⟨e, by simp [hk], rfl⟩
      · exact Or.inl (List.mem_cons_of_mem _ hp)
    · rcases List.mem_cons.mp hp with rfl | hp
      · exact Or.inl (List.mem_cons_self _ _)
      · rcases ih hp with h | ⟨e1, he1, rfl⟩
        · exact Or.inl (List.mem_cons_of_mem _ h)
        · exact Or.inr ⟨e1, List.mem_cons_of_mem _ he1, rfl⟩

theorem updateEntry_append {acc : List (Str × Entry)} {k : Str}
    {e : Entry} {f : Entry → Entry} (hk : ∀ q ∈ acc, q.1 ≠ k) :
    updateEntry (acc ++ [(k, e)]) k f = acc ++ [(k, f e)] := by
  induction acc with
  | nil => simp [updateEntry]
  | cons q rest ih =>
    obtain ⟨k1, e1⟩ := q
    have hk1 : k1 ≠ k := hk (k1, e1) (List.mem_cons_self _ _)
    simp only [List.cons_append, updateEntry, if_neg hk1, List.append_eq]
    rw [ih (fun q hq => hk q (List.mem_cons_of_mem _ hq))]

theorem addWeightedStep_preserves (P : Entry → Prop) {w : Rat} {s : Str}
    {acc : List (Str × Entry)} {h : Hit}
    (hP : ∀ p ∈ acc, P p.2)
    (hnew : P ⟨h.meta, h.document, dictInsert [] s ((1 - h.distance) * w),
      0 + (1 - h.distance) * w, 0 + 1⟩)
    (hupd : ∀ e, P e → P { e with
      scores := dictInsert e.scores s ((1 - h.distance) * w)
      totalScore := e.totalScore + (1 - h.distance) * w
      strategyCount := e.strategyCount + 1 }) :
    ∀ p ∈ addWeightedStep w s acc h, P p.2 := by
  intro p hp
  simp only [addWeightedStep] at hp
  split at hp
  · rcases mem_updateEntry hp with hmem | ⟨e, he, rfl⟩
    · exact hP p hmem
    · exact hupd e (hP (h.docId, e) he)
  · rename_i hany
    have hk : ∀ q ∈ acc, q.1 ≠ h.docId := by
      intro q hq heq
      have hc : acc.any (fun p => p.1 = h.docId) = true :=
        List.any_eq_true.mpr ⟨q, hq, by simp [heq]⟩
      exact absurd hc hany
    rw [updateEntry_append hk] at hp
    rcases List.mem_append.mp hp with hmem | hmem
    · exact hP p hmem
    · have hps : p = (h.docId, _) := List.mem_singleton.mp hmem
      rw [hps]
      exact hnew

theorem addWeighted_count {acc : List (Str × Entry)} {hits : List Hit}
    {w : Rat} {s : Str} (hP : ∀ p ∈ acc, 1 ≤ p.2.strategyCount) :
    ∀ p ∈ addWeighted acc hits w s, 1 ≤ p.2.strategyCount := by
  induction hits generalizing acc with
  | nil => intro p hp; exact hP p hp
  | cons h hs ih =>
    intro p hp
    simp only [addWeighted, List.foldl_cons] at hp
    refine ih ?_ p hp
    exact addWeightedStep_preserves (fun e => 1 ≤ e.strategyCount) hP
      (by simp) (fun e he => by simpa using Nat.le_succ_of_le he)

theorem addWeighted_total {acc : List (Str × Entry)} {hits : List Hit}
    {w : Rat} {s : Str} (hw : 0 ≤ w) (hd : ∀ h ∈ hits, h.distance ≤ 1)
    (hP : ∀ p ∈ acc, 0 ≤ p.2.totalScore) :
    ∀ p ∈ addWeighted acc hits w s, 0 ≤ p.2.totalScore := by
  induction hits generalizing acc with
  | nil => intro p hp; exact hP p hp
  | cons h hs ih =>
    intro p hp
    simp only [addWeighted, List.foldl_cons] at hp
    have hws : 0 ≤ (1 - h.distance) * w :=
      mul_nonneg (by linarith [hd h (List.mem_cons_self _ _)]) hw
    refine ih (fun x hx => hd x (List.mem_cons_of_mem _ hx)) ?_ p hp
    exact addWeightedStep_preserves (fun e => 0 ≤ e.totalScore) hP
      (by simpa using hws) (fun e he => by simpa using add_nonneg he hws)

theorem finalScore_le_one (e : Entry) : finalScore e ≤ 1 :=
  min_le_right _ _

theorem finalScore_nonneg {e : Entry} (ht : 0 ≤ e.totalScore) :
    0 ≤ finalScore e := by
  unfold finalScore
  refine le_min (add_nonneg (add_nonneg ?_ ?_) ?_) zero_le_one
  · exact div_nonneg ht (by positivity)
  · have : (0:Rat) ≤ 15/100 := by norm_num
    have h2 : (0:Rat) ≤ 1/10 := by norm_num
    split <;> split <;> simp_all <;> linarith
  · exact le_min (by positivity) (by norm_num)

theorem mem_calcFinal {g : Bool} {acc : List (Str × Entry)}
    {b : Option (Int × Int)} {n : Nat} {r : SearchResult}
    (hr : r ∈ calcFinal g acc b n) :
    ∃ p ∈ acc, r = formatResult g p.1 p.2 (finalScore p.2) ∧
      ∀ mn mx, b = some (mn, mx) →
        (mn : Rat) ≤ p.2.metadata.price ∧ p.2.metadata.price ≤ (mx : Rat) := by
  simp only [calcFinal] at hr
  have hr2 := mem_stableSort.mp (List.mem_of_mem_take hr)
  rcases List.mem_filterMap.mp hr2 with ⟨p, hp, hsome⟩
  refine ⟨p, hp, ?_⟩
  match hb : b with
  | none =>
    simp only [hb] at hsome
    exact ⟨(Option.some_inj.mp hsome).symm, by simp⟩
  | some (mn, mx) =>
    simp only [hb] at hsome
    split at hsome
    · exact absurd hsome (by simp)
    · rename_i hrange
      push_neg at hrange
      refine ⟨(Option.some_inj.mp hsome).symm, ?_⟩
      intro mn1 mx1 heq
      obtain ⟨rfl, rfl⟩ : mn = mn1 ∧ mx = mx1 := by
        simpa using heq
      exact ⟨hrange.1, hrange.2⟩

theorem resultDescLe_trans : ∀ a b c, resultDescLe a b = true →
    resultDescLe b c = true → resultDescLe a c = true := by
  intro a b c hab hbc
  simp only [resultDescLe, decide_eq_true_eq] at *
  exact le_trans hbc hab

theorem resultDescLe_total : ∀ a b, resultDescLe a b || resultDescLe b a := by
  intro a b
  rcases le_total a.similarityScore b.similarityScore with h | h <;>
    simp [resultDescLe, h]

theorem calcFinal_pairwise (g : Bool) (acc : List (Str × Entry))
    (b : Option (Int × Int)) (n : Nat) :
    (calcFinal g acc b n).Pairwise
      (fun r1 r2 => r2.similarityScore ≤ r1.similarityScore) := by
  refine List.Pairwise.imp ?_
    (List.Pairwise.sublist (List.take_sublist _ _)
      (pairwise_stableSort resultDescLe_trans resultDescLe_total _))
  intro r1 r2 h
  simpa [resultDescLe] using h

/-! ## Claim C9 -/

/-- C9: every entry of the fused-candidate accumulator has
`strategy_count` at least 1 when final results are computed — an entry
is created only inside `_add_weighted_results`, which immediately
records a score and bumps the count — so the division
`total_score / strategy_count` in `_calculate_final_results` never
divides by zero, whatever hits the three passes return. -/
theorem c9_strategy_count_positive (rA rB rC : List Hit) (p : Str × Entry)
    (hp : p ∈ buildAcc rA rB rC) :
    1 ≤ p.2.strategyCount ∧ ((p.2.strategyCount : Rat) ≠ 0) := by
  have h1 : 1 ≤ p.2.strategyCount := by
    refine addWeighted_count (fun q hq => ?_) p hp
    refine addWeighted_count (fun q2 hq2 => ?_) q hq
    refine addWeighted_count (fun q3 hq3 => ?_) q2 hq2
    simp at hq3
  exact ⟨h1, by positivity⟩

/-- Witness for C9 at a concrete accumulator. -/
theorem c9_strategy_count_positive_witness :
    ((("Z".toList, (⟨cexMeta 50, [], [(strategyOriginal, 0)], 0, 1⟩ : Entry)) ∈
        buildAcc [] [] [⟨"Z".toList, 1, cexMeta 50, []⟩]) ∧
      (1 ≤ (1 : Nat) ∧ ((1 : Nat) : Rat) ≠ 0)) := by
  have hmem : ("Z".toList, (⟨cexMeta 50, [], [(strategyOriginal, 0)], 0, 1⟩ : Entry)) ∈
      buildAcc [] [] [⟨"Z".toList, 1, cexMeta 50, []⟩] := by
    norm_num [buildAcc, addWeighted, addWeightedStep, updateEntry, dictInsert]
  exact ⟨hmem, c9_strategy_count_positive [] [] [⟨"Z".toList, 1, cexMeta 50, []⟩] _ hmem⟩

/-! ## Claim C1 -/

/-- C1 is false as stated: the final score is only clipped from above
(`min(..., 1.0)`), never from below, and a raw distance above 1 (as an
L2 or cosine distance can be) drives the score negative.  In this
concrete run the single pass C hit has distance 2, and the returned
similarity score is −11/20 ∉ [0, 1]. -/
theorem c1_score_below_zero_counterexample :
    cexOutNeg.map (fun r => r.similarityScore) = [-(11/20)] ∧
      (-(11/20) : Rat) < 0 := by
  constructor
  · norm_num +decide [cexOutNeg, searchMattresses, cexStoreNeg, generateEmbedding,
      emptyGuard, generateFewShotExpansion, buildAcc, addWeighted, addWeightedStep,
      updateEntry, dictInsert, calcFinal, finalScore, formatResult, stableSort,
      stableInsert, resultDescLe, strategyEnhanced, strategyFewShot,
      strategyOriginal, cexMeta, pyStrip, reconstructFeatures, pyRound,
      List.filterMap_cons, List.take]
  · norm_num

/-- C1 (amended): every similarity score returned by
`search_mattresses` is at most 1; and it lies in [0, 1] provided every
raw distance the store returns is at most 1 (equivalently, every raw
similarity `1 - distance` is non-negative). -/
theorem c1_final_score_bounds (expandExt : Option (Str → Str))
    (createEnh normF : Str → Str) (encode : Str → List Rat)
    (store : List Rat → Nat → List Hit) (q : Str) (n : Nat)
    (b : Option (Int × Int)) (r : SearchResult)
    (hr : r ∈ searchMattresses expandExt createEnh normF encode store q n b) :
    r.similarityScore ≤ 1 ∧
      ((∀ v k, ∀ h ∈ store v k, h.distance ≤ 1) → 0 ≤ r.similarityScore) := by
  obtain ⟨p, hp, hr2, -⟩ := mem_calcFinal hr
  have hscore : r.similarityScore = finalScore p.2 := by rw [hr2]; rfl
  constructor
  · rw [hscore]; exact finalScore_le_one p.2
  · intro hdist
    rw [hscore]
    refine finalScore_nonneg ?_
    refine addWeighted_total (by norm_num) (fun h hh => hdist _ _ h hh)
      (fun q2 hq2 => ?_) p hp
    refine addWeighted_total (by norm_num) (fun h hh => hdist _ _ h hh)
      (fun q3 hq3 => ?_) q2 hq2
    refine addWeighted_total (by norm_num) (fun h hh => hdist _ _ h hh)
      (fun q4 hq4 => ?_) q3 hq3
    simp at hq4

/-- Witness for the amended C1 on a concrete run with all distances
at most 1. -/
theorem c1_final_score_bounds_witness :
    (cexResBudget ∈ searchMattresses none id id (fun _ => []) cexStoreBudget
        ['q'] 2 (some (0, 80))) ∧
      (cexResBudget.similarityScore ≤ 1 ∧
        ((∀ v k, ∀ h ∈ cexStoreBudget v k, h.distance ≤ 1) →
          0 ≤ cexResBudget.similarityScore)) := by
  have hmem : cexResBudget ∈ searchMattresses none id id (fun _ => [])
      cexStoreBudget ['q'] 2 (some (0, 80)) := by
    norm_num +decide [searchMattresses, cexStoreBudget, generateEmbedding,
      emptyGuard, generateFewShotExpansion, buildAcc, addWeighted, addWeightedStep,
      updateEntry, dictInsert, calcFinal, finalScore, formatResult, stableSort,
      stableInsert, resultDescLe, strategyEnhanced, strategyFewShot,
      strategyOriginal, cexMeta, cexResBudget, pyStrip, reconstructFeatures,
      pyRound, List.filterMap_cons, List.take]
  exact ⟨hmem, c1_final_score_bounds none id id (fun _ => []) cexStoreBudget
    ['q'] 2 (some (0, 80)) cexResBudget hmem⟩

/-! ## Claim C2 -/

/-- C2: under the fixed weights (A = 1.0, B = 0.8, C = 0.6), the
additive bonuses (+0.15 for pass A, +0.10 for pass B) and the
multi-pass bonus `min(passCount * 0.05, 0.15)`, candidate X found by
all three passes with raw similarities 0.70 / 0.65 / 0.60 scores
139/150 ≈ 0.927, candidate Y found only by pass C with raw similarity
0.90 scores 59/100 = 0.59, and X outranks Y in the returned order. -/
theorem c2_multi_pass_outranks_single_pass :
    cexOutC2.map (fun r => (r.docId, r.similarityScore)) =
      [("X".toList, 139/150), ("Y".toList, 59/100)] ∧
      (59/100 : Rat) < 139/150 := by
  constructor
  · norm_num +decide [cexOutC2, searchMattresses, cexStoreC2, cexEncLen,
      generateEmbedding, emptyGuard, generateFewShotExpansion, buildAcc,
      addWeighted, addWeightedStep, updateEntry, dictInsert, calcFinal,
      finalScore, formatResult, stableSort, stableInsert, resultDescLe,
      strategyEnhanced, strategyFewShot, strategyOriginal, cexMeta, pyStrip,
      reconstructFeatures, pyRound, List.filterMap_cons, List.take]
  · norm_num

/-! ## Claim C3 -/

/-- C3 is false as stated: the sort in `_calculate_final_results` keys
only on the similarity score, so equal scores keep the accumulator
insertion order, not id-ascending order.  In this concrete run the two
candidates tie at 7/20 and are returned as `b` before `a`, although
`"a" < "b"`. -/
theorem c3_tie_not_id_ascending_counterexample :
    cexOutTie.map (fun r => (r.docId, r.similarityScore)) =
      [("b".toList, 7/20), ("a".toList, 7/20)] ∧
      List.Lex (· < ·) "a".toList "b".toList := by
  constructor
  · norm_num +decide [cexOutTie, searchMattresses, cexStoreTie,
      generateEmbedding, emptyGuard, generateFewShotExpansion, buildAcc,
      addWeighted, addWeightedStep, updateEntry, dictInsert, calcFinal,
      finalScore, formatResult, stableSort, stableInsert, resultDescLe,
      strategyEnhanced, strategyFewShot, strategyOriginal, cexMeta, pyStrip,
      reconstructFeatures, pyRound, List.filterMap_cons, List.take]
  · decide

/-- C3 (amended): the result list of `search_mattresses` is sorted by
final score descending; candidates with equal final scores keep the
order in which they first entered the fused-candidate accumulator
(the sort is stable), which is deterministic for fixed pass results but
is not id-ascending order. -/
theorem c3_sorted_descending (expandExt : Option (Str → Str))
    (createEnh normF : Str → Str) (encode : Str → List Rat)
    (store : List Rat → Nat → List Hit) (q : Str) (n : Nat)
    (b : Option (Int × Int)) :
    (searchMattresses expandExt createEnh normF encode store q n b).Pairwise
      (fun r1 r2 => r2.similarityScore ≤ r1.similarityScore) :=
  calcFinal_pairwise _ _ _ _

/-! ## Claim C5 -/

/-- C5 is false as stated: without the generative-language client all
three passes still run and contribute — pass B's representation merely
degenerates to the original query — so `passCount` does not degrade to
pass C alone.  In this concrete no-client run the returned candidate
carries contributions from the `enhanced`, `few_shot` and `original`
passes, not from `original` alone. -/
theorem c5_pass_c_alone_counterexample :
    cexOutNoClient.map (fun r => r.strategiesUsed) =
      [[strategyEnhanced, strategyFewShot, strategyOriginal]] ∧
      strategyEnhanced ≠ strategyOriginal := by
  constructor
  · norm_num +decide [cexOutNoClient, searchMattresses, cexStoreConst,
      generateEmbedding, emptyGuard, generateFewShotExpansion, buildAcc,
      addWeighted, addWeightedStep, updateEntry, dictInsert, calcFinal,
      finalScore, formatResult, stableSort, stableInsert, resultDescLe,
      cexMeta, pyStrip, reconstructFeatures, pyRound,
      List.filterMap_cons, List.take]
  · decide

/-- C5 (amended): with no generative-language client, every call to
`search_mattresses` still completes and returns a ranked (sorted
descending) result list; query expansion falls back to returning the
original query unchanged, synonym lookup falls back to the empty list,
and the pipeline still issues all three passes, passes B and C sharing
the same degenerate query representation. -/
theorem c5_no_client_degrades_gracefully :
    (∀ q : Str, generateFewShotExpansion none q = q) ∧
    (∀ kw : Str, generateSynonyms none kw = []) ∧
    (∀ (createEnh normF : Str → Str) (encode : Str → List Rat)
        (store : List Rat → Nat → List Hit) (q : Str) (n : Nat)
        (b : Option (Int × Int)),
      searchMattresses none createEnh normF encode store q n b =
        calcFinal false
          (buildAcc (store (encode (createEnh (emptyGuard q))) (n * 2))
            (store (encode (normF (emptyGuard q))) (n * 2))
            (store (encode (normF (emptyGuard q))) n)) b n ∧
      (searchMattresses none createEnh normF encode store q n b).Pairwise
        (fun r1 r2 => r2.similarityScore ≤ r1.similarityScore)) := by
  refine ⟨fun q => rfl, fun kw => rfl, ?_⟩
  intro createEnh normF encode store q n b
  exact ⟨rfl, calcFinal_pairwise _ _ _ _⟩

/-! ## Claim C4 -/

theorem le_pyRound {q : Rat} {mn : Int} (h : (mn : Rat) ≤ q) :
    mn ≤ pyRound q := by
  have hf : mn ≤ ⌊q⌋ := Int.le_floor.mpr h
  simp only [pyRound]
  split_ifs <;> omega

theorem pyRound_le {q : Rat} {mx : Int} (h : q ≤ (mx : Rat)) :
    pyRound q ≤ mx := by
  have hf : ⌊q⌋ ≤ mx := by
    have h2 := Int.floor_le_floor h
    rwa [Int.floor_intCast] at h2
  simp only [pyRound]
  split_ifs with h1 h2 h3
  · exact hf
  · have hge : (1:Rat)/2 ≤ q - ⌊q⌋ := not_lt.mp h1
    by_contra hc
    have heq : ⌊q⌋ = mx := by omega
    rw [heq] at hge
    push_cast at hge
    linarith
  · exact hf
  · have hge : (1:Rat)/2 ≤ q - ⌊q⌋ := not_lt.mp h1
    by_contra hc
    have heq : ⌊q⌋ = mx := by omega
    rw [heq] at hge
    push_cast at hge
    linarith

/-- C4: with a price range `(mn, mx)`, no result returned by
`search_mattresses` has a price outside the inclusive interval
`[mn, mx]` — neither the stored normalized price nor the rounded price
reported in the result — and filtering does not change the scores of the
candidates that remain: every surviving result carries exactly the
`finalScore` of its fused-candidate accumulator entry, a value computed
without reference to the budget. -/
theorem c4_price_filter (expandExt : Option (Str → Str))
    (createEnh normF : Str → Str) (encode : Str → List Rat)
    (store : List Rat → Nat → List Hit) (q : Str) (n : Nat)
    (mn mx : Int) (r : SearchResult)
    (hr : r ∈ searchMattresses expandExt createEnh normF encode store q n
      (some (mn, mx))) :
    (mn ≤ r.price ∧ r.price ≤ mx) ∧
    ∃ p ∈ buildAcc
        (store (generateEmbedding expandExt createEnh normF encode q true)
          (n * 2))
        (store (generateEmbedding expandExt createEnh normF encode
          (generateFewShotExpansion expandExt q) false) (n * 2))
        (store (generateEmbedding expandExt createEnh normF encode q false) n),
      r = formatResult expandExt.isSome p.1 p.2 (finalScore p.2) ∧
      (mn : Rat) ≤ p.2.metadata.price ∧ p.2.metadata.price ≤ (mx : Rat) := by
  have hr2 : r ∈ calcFinal expandExt.isSome
      (buildAcc
        (store (generateEmbedding expandExt createEnh normF encode q true)
          (n * 2))
        (store (generateEmbedding expandExt createEnh normF encode
          (generateFewShotExpansion expandExt q) false) (n * 2))
        (store (generateEmbedding expandExt createEnh normF encode q false) n))
      (some (mn, mx)) n := hr
  obtain ⟨p, hp, hre, hrange⟩ := mem_calcFinal hr2
  obtain ⟨h1, h2⟩ := hrange mn mx rfl
  have hprice : r.price = pyRound p.2.metadata.price := by
    rw [hre]; rfl
  refine ⟨⟨?_, ?_⟩, p, hp, hre, h1, h2⟩
  · rw [hprice]; exact le_pyRound h1
  · rw [hprice]; exact pyRound_le h2

/-- Witness for C4 on the concrete budget-filtered run. -/
theorem c4_price_filter_witness :
    (cexResBudget ∈ searchMattresses none id id (fun _ => []) cexStoreBudget
        ['q'] 2 (some (0, 80))) ∧
      ((0 ≤ cexResBudget.price ∧ cexResBudget.price ≤ 80)) := by
  have hmem : cexResBudget ∈ searchMattresses none id id (fun _ => [])
      cexStoreBudget ['q'] 2 (some (0, 80)) := by
    norm_num +decide [searchMattresses, cexStoreBudget, generateEmbedding,
      emptyGuard, generateFewShotExpansion, buildAcc, addWeighted, addWeightedStep,
      updateEntry, dictInsert, calcFinal, finalScore, formatResult, stableSort,
      stableInsert, resultDescLe, strategyEnhanced, strategyFewShot,
      strategyOriginal, cexMeta, cexResBudget, pyStrip, reconstructFeatures,
      pyRound, List.filterMap_cons, List.take]
  exact ⟨hmem, (c4_price_filter none id id (fun _ => []) cexStoreBudget
    ['q'] 2 0 80 cexResBudget hmem).1⟩

/-! ## Claim C8 -/

/-- C8: the relevance gate's tiers are checked in fixed cost-ascending
order and short-circuit on the first match: any query at or above the
length threshold that contains an allow-list term is accepted with the
allow method (`certain_keywords`), whether or not it also contains
deny-list terms — the deny-list check is only reached by queries with no
allow-list term. -/
theorem c8_allow_overrides_deny (client : Option (Str → Bool × Str × Rat))
    (q : Str) (hlen : ¬ ((pyStrip q).length < 3))
    (hallow : containsAnyKw (pyStrip (pyLower q)) certainKeywords = true) :
    checkRelevance client q =
      ⟨true, "매트리스 관련 키워드 발견".toList, 95/100,
        "certain_keywords".toList⟩ := by
  simp [checkRelevance, hlen, hallow]

/-- Witness for C8: "매트리스 날씨 추천합니다" contains the allow term
"매트리스" and the deny term "날씨", and is accepted via the allow tier. -/
theorem c8_allow_overrides_deny_witness :
    (¬ ((pyStrip "매트리스 날씨 추천합니다".toList).length < 3) ∧
      containsAnyKw (pyStrip (pyLower "매트리스 날씨 추천합니다".toList))
        certainKeywords = true ∧
      containsAnyKw (pyStrip (pyLower "매트리스 날씨 추천합니다".toList))
        irrelevantKeywords = true) ∧
    checkRelevance none "매트리스 날씨 추천합니다".toList =
      ⟨true, "매트리스 관련 키워드 발견".toList, 95/100,
        "certain_keywords".toList⟩ := by
  refine ⟨⟨by decide, by decide, by decide⟩, ?_⟩
  exact c8_allow_overrides_deny none _ (by decide) (by decide)

/-! ## Claim C6 -/

theorem dropWhile_eq_self_of_length {p : Char → Bool} {l : List Char}
    (h : (l.dropWhile p).length = l.length) : l.dropWhile p = l := by
  cases l with
  | nil => rfl
  | cons c t =>
    by_cases hpc : p c
    · exfalso
      rw [List.dropWhile_cons, if_pos hpc] at h
      have hsuf : t.dropWhile p <:+ t := List.dropWhile_suffix p
      have := hsuf.length_le
      simp at h
      omega
    · rw [List.dropWhile_cons, if_neg hpc]

theorem head_not_of_dropWhile {p : Char → Bool} {c : Char} {t : List Char}
    (h : (c :: t).dropWhile p = c :: t) : p c = false := by
  by_contra hpc
  rw [Bool.not_eq_false] at hpc
  rw [List.dropWhile_cons, if_pos hpc] at h
  have h2 := congrArg List.length h
  have hsuf : t.dropWhile p <:+ t := List.dropWhile_suffix p
  have := hsuf.length_le
  simp at h2
  omega

theorem pyStrip_dropWhile {s : Str} (h : pyStrip s = s) :
    s.dropWhile Char.isWhitespace = s := by
  apply dropWhile_eq_self_of_length
  have h1 := congrArg List.length h
  have h2 : (pyStrip s).length ≤ (s.dropWhile Char.isWhitespace).length := by
    simp only [pyStrip, List.length_reverse]
    have hsuf : (s.dropWhile Char.isWhitespace).reverse.dropWhile Char.isWhitespace
        <:+ (s.dropWhile Char.isWhitespace).reverse :=
      List.dropWhile_suffix Char.isWhitespace
    simpa using hsuf.length_le
  have h3 : (s.dropWhile Char.isWhitespace).length ≤ s.length :=
    (List.dropWhile_suffix Char.isWhitespace).length_le
  omega

theorem pyStrip_reverse_dropWhile {s : Str} (h : pyStrip s = s) :
    s.reverse.dropWhile Char.isWhitespace = s.reverse := by
  have h1 : pyStrip s = (s.reverse.dropWhile Char.isWhitespace).reverse := by
    simp only [pyStrip, pyStrip_dropWhile h]
  rw [h] at h1
  have h2 := congrArg List.reverse h1
  simpa using h2.symm

theorem pyStrip_eq_self_of {s : Str}
    (h1 : s.dropWhile Char.isWhitespace = s)
    (h2 : s.reverse.dropWhile Char.isWhitespace = s.reverse) :
    pyStrip s = s := by
  simp only [pyStrip, h1, h2, List.reverse_reverse]

theorem pyStrip_cons_space (g : Str) : pyStrip (' ' :: g) = pyStrip g := by
  have hsp : ' '.isWhitespace = true := rfl
  simp [pyStrip, List.dropWhile_cons, hsp]

theorem dropWhile_append_of {p : Char → Bool} {l t : List Char}
    (hne : l ≠ []) (h : l.dropWhile p = l) :
    (l ++ t).dropWhile p = l ++ t := by
  cases l with
  | nil => exact absurd rfl hne
  | cons c u =>
    have hpc := head_not_of_dropWhile h
    simp [List.dropWhile_cons, hpc]

theorem pySplit_exists_cons (sep : Char) (s : Str) :
    ∃ a as, pySplit sep s = a :: as := by
  cases s with
  | nil => exact ⟨[], [], rfl⟩
  | cons c rest =>
    simp only [pySplit]
    rcases hrec : pySplit sep rest with - | ⟨a, as⟩
    · exact ⟨[], [], rfl⟩
    · by_cases hc : c = sep
      · exact ⟨[], a :: as, by simp [hc]⟩
      · exact ⟨c :: a, as, by simp [hc]⟩

theorem pySplit_cons_ne {sep c : Char} {s : Str} {a : Str} {as : List Str}
    (hc : c ≠ sep) (h : pySplit sep s = a :: as) :
    pySplit sep (c :: s) = (c :: a) :: as := by
  simp only [pySplit, h, if_neg hc]

theorem pySplit_no_sep {sep : Char} {a : Str} (h : sep ∉ a) :
    pySplit sep a = [a] := by
  induction a with
  | nil => rfl
  | cons c t ih =>
    have hc : c ≠ sep := fun hx => h (hx ▸ List.mem_cons_self _ _)
    have ht : sep ∉ t := fun hx => h (List.mem_cons_of_mem _ hx)
    exact pySplit_cons_ne hc (ih ht)

theorem pySplit_append {sep : Char} {a t : Str} (h : sep ∉ a) :
    pySplit sep (a ++ sep :: t) = a :: pySplit sep t := by
  induction a with
  | nil =>
    obtain ⟨b, bs, hb⟩ := pySplit_exists_cons sep t
    simp [pySplit, hb]
  | cons c u ih =>
    have hc : c ≠ sep := fun hx => h (hx ▸ List.mem_cons_self _ _)
    have hu : sep ∉ u := fun hx => h (List.mem_cons_of_mem _ hx)
    have hrec := ih hu
    obtain ⟨b, bs, hb⟩ := pySplit_exists_cons sep t
    rw [hb] at hrec
    rw [List.cons_append]
    rw [pySplit_cons_ne hc hrec, hb]

theorem pyJoin_ne_nil {sep : Str} {x : Str} {rest : List Str} (hx : x ≠ []) :
    pyJoin sep (x :: rest) ≠ [] := by
  cases rest with
  | nil => simpa [pyJoin] using hx
  | cons y rs =>
    simp only [pyJoin]
    intro hcontra
    rcases List.append_eq_nil.mp hcontra with ⟨h1, -⟩
    rcases List.append_eq_nil.mp h1 with ⟨h2, -⟩
    exact hx h2

theorem pySplit_pyJoin :
    ∀ (rest : List Str) (f : Str), (∀ g ∈ f :: rest, ',' ∉ g) →
      pySplit ',' (pyJoin (", ").toList (f :: rest)) =
        f :: rest.map (fun g => ' ' :: g) := by
  intro rest
  induction rest with
  | nil =>
    intro f h
    exact pySplit_no_sep (h f (List.mem_cons_self _ _))
  | cons g rs ih =>
    intro f h
    have hf : ',' ∉ f := h f (List.mem_cons_self _ _)
    have hrec := ih g (fun x hx => h x (List.mem_cons_of_mem _ hx))
    have hj : pyJoin (", ").toList (f :: g :: rs) =
        f ++ ',' :: ' ' :: pyJoin (", ").toList (g :: rs) := by
      simp [pyJoin]
    rw [hj, pySplit_append hf]
    obtain ⟨b, bs, hb⟩ := pySplit_exists_cons ',' (pyJoin (", ").toList (g :: rs))
    rw [hb] at hrec
    obtain ⟨rfl, rfl⟩ : b = g ∧ bs = rs.map (fun g => ' ' :: g) := by
      cases hrec
      exact ⟨rfl, rfl⟩
    rw [pySplit_cons_ne (by decide) hb]
    rfl

theorem pyStrip_pyJoin {fs : List Str} (hne : fs ≠ [])
    (h : ∀ f ∈ fs, f ≠ [] ∧ pyStrip f = f) :
    pyStrip (pyJoin (", ").toList fs) = pyJoin (", ").toList fs := by
  apply pyStrip_eq_self_of
  · cases fs with
    | nil => exact absurd rfl hne
    | cons f rest =>
      obtain ⟨hf1, hf2⟩ := h f (List.mem_cons_self _ _)
      have hd := pyStrip_dropWhile hf2
      cases rest with
      | nil => exact hd
      | cons g rs =>
        have hj : pyJoin (", ").toList (f :: g :: rs) =
            f ++ ((", ").toList ++ pyJoin (", ").toList (g :: rs)) := by
          simp [pyJoin]
        rw [hj]
        exact dropWhile_append_of hf1 hd
  · clear hne
    induction fs with
    | nil => simp [pyJoin, pyStrip]
    | cons f rest ih =>
      cases rest with
      | nil =>
        obtain ⟨-, hf2⟩ := h f (List.mem_cons_self _ _)
        exact pyStrip_reverse_dropWhile hf2
      | cons g rs =>
        have hj : pyJoin (", ").toList (f :: g :: rs) =
            (f ++ (", ").toList) ++ pyJoin (", ").toList (g :: rs) := by
          simp [pyJoin]
        rw [hj, List.reverse_append]
        have hg1 : g ≠ [] := (h g (by simp)).1
        have hrec := ih (fun x hx => h x (List.mem_cons_of_mem _ hx))
        refine dropWhile_append_of ?_ hrec
        have hjn : pyJoin (", ").toList (g :: rs) ≠ [] := pyJoin_ne_nil hg1
        simpa using hjn

theorem stripKeep_self {f : Str} (h1 : pyStrip f = f) (h2 : f ≠ []) :
    stripKeep f = some f := by
  simp [stripKeep, h1, h2]

theorem stripKeep_space {g : Str} (h1 : pyStrip g = g) (h2 : g ≠ []) :
    stripKeep (' ' :: g) = some g := by
  simp [stripKeep, pyStrip_cons_space, h1, h2]

theorem filterMap_stripKeep_spaces :
    ∀ (rest : List Str), (∀ g ∈ rest, g ≠ [] ∧ pyStrip g = g) →
      (rest.map (fun g => ' ' :: g)).filterMap stripKeep = rest := by
  intro rest
  induction rest with
  | nil => intro h; rfl
  | cons g rs ih =>
    intro h
    rw [List.map_cons, List.filterMap_cons,
      stripKeep_space (h g (List.mem_cons_self _ _)).2
        (h g (List.mem_cons_self _ _)).1]
    rw [ih (fun x hx => h x (List.mem_cons_of_mem _ hx))]

/-- C6: for every features list whose elements are non-empty, contain
no comma and carry no leading or trailing whitespace, storing it as the
comma-plus-space joined `features_text` (as `preprocess_for_rag` does,
including the strip applied by `_validate_metadata`) and reconstructing
it in `_format_result` by splitting on commas and stripping each piece
returns the original list element-for-element. -/
theorem c6_features_round_trip (m : Mattress)
    (h : ∀ f ∈ m.features, f ≠ [] ∧ ',' ∉ f ∧ pyStrip f = f) :
    reconstructFeatures (mkMetadata m).featuresText = m.features := by
  have hft : (mkMetadata m).featuresText = pyStrip (joinFeatures m.features) := rfl
  rw [hft]
  rcases hfs : m.features with - | ⟨f, rest⟩
  · rfl
  · rw [hfs] at h
    have hstrip : ∀ g ∈ f :: rest, g ≠ [] ∧ pyStrip g = g :=
      fun g hg => ⟨(h g hg).1, (h g hg).2.2⟩
    have hjoin : joinFeatures (f :: rest) = pyJoin (", ").toList (f :: rest) := by
      simp [joinFeatures]
    rw [hjoin, pyStrip_pyJoin (by simp) hstrip]
    have hne : pyJoin (", ").toList (f :: rest) ≠ [] :=
      pyJoin_ne_nil (h f (List.mem_cons_self _ _)).1
    rw [reconstructFeatures, if_neg hne]
    rw [pySplit_pyJoin rest f (fun g hg => (h g hg).2.1)]
    rw [List.filterMap_cons,
      stripKeep_self (h f (List.mem_cons_self _ _)).2.2
        (h f (List.mem_cons_self _ _)).1]
    rw [filterMap_stripKeep_spaces rest
      (fun g hg => ⟨(h g (List.mem_cons_of_mem _ hg)).1,
        (h g (List.mem_cons_of_mem _ hg)).2.2⟩)]

/-- Witness for C6 on the features list of the specification example. -/
theorem c6_features_round_trip_witness :
    (∀ f ∈ (["항균", "통기성", "두께22cm"].map String.toList),
      f ≠ [] ∧ ',' ∉ f ∧ pyStrip f = f) ∧
    reconstructFeatures (mkMetadata ⟨"n".toList, "b".toList, "t".toList, 0, 0,
      ["항균", "통기성", "두께22cm"].map String.toList, [], []⟩).featuresText =
      ["항균", "통기성", "두께22cm"].map String.toList := by
  refine ⟨by decide, ?_⟩
  exact c6_features_round_trip _ (by decide)

/-! ## Claims C7 and C10: decimal rendering facts -/

theorem decDigitVal_digitChar : ∀ k < 10, decDigitVal (Nat.digitChar k) = k := by
  decide

theorem decValAux_natToDecAux :
    ∀ (fuel n : Nat), n ≤ fuel → decValAux (natToDecAux fuel n) = n := by
  intro fuel
  induction fuel with
  | zero =>
    intro n hn
    interval_cases n
    rfl
  | succ f ih =>
    intro n hn
    by_cases hn0 : n = 0
    · simp [natToDecAux, hn0, decValAux]
    · have hdiv : n / 10 ≤ f := by
        have := Nat.div_lt_self (Nat.pos_of_ne_zero hn0) (by norm_num : 1 < 10)
        omega
      simp only [natToDecAux, if_neg hn0, decValAux]
      rw [ih (n / 10) hdiv, decDigitVal_digitChar (n % 10) (Nat.mod_lt n (by norm_num))]
      omega

theorem decValAux_natToDec_reverse (n : Nat) :
    decValAux (natToDec n).reverse = n := by
  by_cases hn : n = 0
  · subst hn; decide
  · simp only [natToDec, if_neg hn, List.reverse_reverse]
    exact decValAux_natToDecAux n n le_rfl

theorem natToDec_injective : Function.Injective natToDec := by
  intro m n h
  have := congrArg (fun l => decValAux (List.reverse l)) h
  simpa [decValAux_natToDec_reverse] using this

theorem natToDec_ne_nil (n : Nat) : natToDec n ≠ [] := by
  by_cases hn : n = 0
  · subst hn; decide
  · simp only [natToDec, if_neg hn]
    rcases n with - | k
    · exact absurd rfl hn
    · simp [natToDecAux]

theorem self_ne_append_cons (l : Str) (c : Char) (t : Str) :
    l ++ c :: t ≠ l := by
  intro h
  have := congrArg List.length h
  simp at this

/-! ## Claims C7 and C10: the collision loop -/

theorem genLoop_eq_of_not_mem {md5hex : Str → Str} {sanitized baseStr : Str}
    {existing : List Str} {c : Nat} {cur : Str} (h : cur ∉ existing) :
    ∀ fuel, genLoop md5hex sanitized baseStr existing c cur fuel = cur := by
  intro fuel
  cases fuel with
  | zero => rfl
  | succ f => simp [genLoop, h]

theorem mem_of_genLoop_ne {md5hex : Str → Str} {sanitized baseStr : Str}
    {existing : List Str} {c : Nat} {cur : Str} {fuel : Nat}
    (h : genLoop md5hex sanitized baseStr existing c cur fuel ≠ cur) :
    cur ∈ existing := by
  by_contra hmem
  exact h (genLoop_eq_of_not_mem hmem fuel)

theorem genLoop_fresh_shape (md5hex : Str → Str) (sanitized baseStr : Str)
    (existing : List Str) :
    ∀ (fuel c : Nat) (cur : Str), 1 ≤ c → c ≤ 1000 → 1001 ≤ c + fuel →
    (∃ x ∈ cur :: (List.range' c (1000 - c)).map
        (fun k => sanitized ++ '_' :: natToDec k), x ∉ existing) →
    genLoop md5hex sanitized baseStr existing c cur fuel ∉ existing ∧
      (genLoop md5hex sanitized baseStr existing c cur fuel = cur ∨
        ∃ k, c ≤ k ∧ k ≤ 999 ∧
          genLoop md5hex sanitized baseStr existing c cur fuel =
            sanitized ++ '_' :: natToDec k) := by
  intro fuel
  induction fuel with
  | zero =>
    intro c cur h1 h2 h3 hfree
    exact absurd (by omega : (1001:Nat) ≤ 1000) (by norm_num)
  | succ f ih =>
    intro c cur h1 h2 h3 hfree
    by_cases hcur : cur ∈ existing
    · obtain ⟨x, hx, hxout⟩ := hfree
      have hxne : x ≠ cur := fun hxc => hxout (hxc ▸ hcur)
      have hxm : x ∈ (List.range' c (1000 - c)).map
          (fun k => sanitized ++ '_' :: natToDec k) := by
        rcases List.mem_cons.mp hx with rfl | hxm
        · exact absurd hcur hxout
        · exact hxm
      have hc999 : c ≤ 999 := by
        by_contra hc
        have hc1000 : c = 1000 := by omega
        rw [hc1000] at hxm
        simp at hxm
      have hsplit : (1000 : Nat) - c = (999 - c) + 1 := by omega
      have hxm2 : x ∈ (sanitized ++ '_' :: natToDec c) ::
          (List.range' (c + 1) (999 - c)).map
            (fun k => sanitized ++ '_' :: natToDec k) := by
        rw [hsplit, List.range'_succ, List.map_cons] at hxm
        exact hxm
      have hstep : genLoop md5hex sanitized baseStr existing c cur (f + 1) =
          genLoop md5hex sanitized baseStr existing (c + 1)
            (sanitized ++ '_' :: natToDec c) f := by
        have hnot : ¬ (1000 < c + 1) := by omega
        simp [genLoop, hcur, hnot]
      have hrec := ih (c + 1) (sanitized ++ '_' :: natToDec c)
        (by omega) (by omega) (by omega)
        ⟨x, by rwa [show (1000:Nat) - (c+1) = 999 - c by omega], hxout⟩
      rw [hstep]
      refine ⟨hrec.1, ?_⟩
      rcases hrec.2 with heq | ⟨k, hk1, hk2, heq⟩
      · exact Or.inr ⟨c, le_rfl, hc999, heq⟩
      · exact Or.inr ⟨k, by omega, hk2, heq⟩
    · rw [show genLoop md5hex sanitized baseStr existing c cur (f + 1) = cur by
        simp [genLoop, hcur]]
      exact ⟨hcur, Or.inl rfl⟩

theorem candidates_free (sanitized : Str) (existing : List Str)
    (hlen : existing.length ≤ 999) :
    ∃ x ∈ sanitized :: (List.range' 1 999).map
      (fun k => sanitized ++ '_' :: natToDec k), x ∉ existing := by
  by_contra hall
  push_neg at hall
  have hinj : Function.Injective (fun k => sanitized ++ '_' :: natToDec k) := by
    intro a b hab
    simp only [List.append_cancel_left_eq, List.cons.injEq, true_and] at hab
    exact natToDec_injective hab
  have hnodup : (sanitized :: (List.range' 1 999).map
      (fun k => sanitized ++ '_' :: natToDec k)).Nodup := by
    rw [List.nodup_cons]
    constructor
    · intro hmem
      obtain ⟨k, -, heq⟩ := List.mem_map.mp hmem
      exact self_ne_append_cons sanitized '_' (natToDec k) heq
    · exact (List.nodup_range' 1 999).map hinj
  have hsub : (sanitized :: (List.range' 1 999).map
      (fun k => sanitized ++ '_' :: natToDec k)).toFinset ⊆ existing.toFinset := by
    intro x hx
    exact List.mem_toFinset.mpr (hall x (List.mem_toFinset.mp hx))
  have hcard1 : (sanitized :: (List.range' 1 999).map
      (fun k => sanitized ++ '_' :: natToDec k)).toFinset.card = 1000 := by
    rw [List.toFinset_card_of_nodup hnodup]
    simp
  have hcard2 := Finset.card_le_card hsub
  have hcard3 : existing.toFinset.card ≤ existing.length :=
    List.toFinset_card_le existing
  omega

theorem genUniqueId_fresh_shape (md5hex : Str → Str) (m : Mattress)
    (existing : List Str) (hlen : existing.length ≤ 999) :
    genUniqueId md5hex m existing ∉ existing ∧
      (genUniqueId md5hex m existing = sanitizeId md5hex (baseId m) ∨
        ∃ k, 1 ≤ k ∧ k ≤ 999 ∧
          genUniqueId md5hex m existing =
            sanitizeId md5hex (baseId m) ++ '_' :: natToDec k) := by
  have hfree := candidates_free (sanitizeId md5hex (baseId m)) existing hlen
  have h := genLoop_fresh_shape md5hex (sanitizeId md5hex (baseId m)) (baseId m)
    existing 1001 1 (sanitizeId md5hex (baseId m))
    le_rfl (by norm_num) (by norm_num)
    (by rwa [show (1000:Nat) - 1 = 999 by norm_num])
  exact h

theorem genUniqueId_suffix (md5hex : Str → Str) (m : Mattress)
    (existing : List Str) (hlen : existing.length ≤ 999)
    (hbase : sanitizeId md5hex (baseId m) ∈ existing) :
    ∃ k, 1 ≤ k ∧ k ≤ 999 ∧
      genUniqueId md5hex m existing =
        sanitizeId md5hex (baseId m) ++ '_' :: natToDec k := by
  obtain ⟨hout, hshape⟩ := genUniqueId_fresh_shape md5hex m existing hlen
  rcases hshape with heq | hsuf
  · exact absurd (heq ▸ hbase) hout
  · exact hsuf

theorem base_mem_after_assign (md5hex : Str → Str) (m : Mattress)
    (existing : List Str) :
    sanitizeId md5hex (baseId m) ∈ genUniqueId md5hex m existing :: existing := by
  by_cases h : genUniqueId md5hex m existing = sanitizeId md5hex (baseId m)
  · exact h ▸ List.mem_cons_self _ _
  · exact List.mem_cons_of_mem _ (mem_of_genLoop_ne h)

theorem sanitizeGuard_ne_nil (s : Str) : sanitizeGuard s ≠ [] := by
  unfold sanitizeGuard
  split
  · decide
  · assumption

theorem sanitizeDigit_ne_nil {s : Str} (h : s ≠ []) : sanitizeDigit s ≠ [] := by
  match s with
  | [] => exact absurd rfl h
  | c :: t =>
    simp only [sanitizeDigit]
    split
    · simp
    · exact h

theorem sanitizeId_ne_nil (md5hex : Str → Str) (rawId : Str) :
    sanitizeId md5hex rawId ≠ [] := by
  unfold sanitizeId
  split
  · decide
  · exact sanitizeDigit_ne_nil (sanitizeGuard_ne_nil _)

theorem genUniqueId_ne_nil (md5hex : Str → Str) (m : Mattress)
    (existing : List Str) (hlen : existing.length ≤ 999) :
    genUniqueId md5hex m existing ≠ [] := by
  rcases (genUniqueId_fresh_shape md5hex m existing hlen).2 with heq | ⟨k, -, -, heq⟩
  · rw [heq]; exact sanitizeId_ne_nil _ _
  · rw [heq]; simp

/-! ## Claims C7 and C10: the preprocessing loop -/

theorem preprocessItems_length (md5hex : Str → Str) (bst : Mattress → Str) :
    ∀ (ms : List Mattress) (existing : List Str),
      (preprocessItems md5hex bst existing ms).length = ms.length := by
  intro ms
  induction ms with
  | nil => intro existing; rfl
  | cons m rest ih =>
    intro existing
    simp [preprocessItems, ih]

theorem preprocessItems_append (md5hex : Str → Str) (bst : Mattress → Str) :
    ∀ (l₁ l₂ : List Mattress) (existing : List Str),
      preprocessItems md5hex bst existing (l₁ ++ l₂) =
        preprocessItems md5hex bst existing l₁ ++
          preprocessItems md5hex bst (existingAfter md5hex existing l₁) l₂ := by
  intro l₁
  induction l₁ with
  | nil => intro l₂ existing; rfl
  | cons m rest ih =>
    intro l₂ existing
    simp only [List.cons_append, preprocessItems, existingAfter, List.cons.injEq,
      true_and]
    exact ih l₂ _

theorem mem_existingAfter (md5hex : Str → Str) {x : Str} :
    ∀ (l : List Mattress) (existing : List Str), x ∈ existing →
      x ∈ existingAfter md5hex existing l := by
  intro l
  induction l with
  | nil => intro existing h; exact h
  | cons m rest ih =>
    intro existing h
    exact ih _ (List.mem_cons_of_mem _ h)

theorem existingAfter_length (md5hex : Str → Str) :
    ∀ (l : List Mattress) (existing : List Str),
      (existingAfter md5hex existing l).length = existing.length + l.length := by
  intro l
  induction l with
  | nil => intro existing; simp [existingAfter]
  | cons m rest ih =>
    intro existing
    simp only [existingAfter, List.length_cons]
    rw [ih]
    simp
    omega

theorem preprocessItems_ids_fresh (md5hex : Str → Str) (bst : Mattress → Str) :
    ∀ (ms : List Mattress) (existing : List Str),
      existing.length + ms.length ≤ 1000 →
      ((preprocessItems md5hex bst existing ms).map (·.itemId)).Nodup ∧
        ∀ x ∈ (preprocessItems md5hex bst existing ms).map (·.itemId),
          x ∉ existing := by
  intro ms
  induction ms with
  | nil => intro existing h; simp [preprocessItems]
  | cons m rest ih =>
    intro existing h
    have hlen : existing.length ≤ 999 := by
      have := h
      simp only [List.length_cons] at this
      omega
    have hfresh := (genUniqueId_fresh_shape md5hex m existing hlen).1
    obtain ⟨hnd, hout⟩ := ih (genUniqueId md5hex m existing :: existing)
      (by simp only [List.length_cons]; simp at h; omega)
    refine ⟨?_, ?_⟩
    · simp only [preprocessItems, List.map_cons, List.nodup_cons]
      refine ⟨fun hmem => ?_, hnd⟩
      exact (hout _ hmem) (List.mem_cons_self _ _)
    · intro x hx
      simp only [preprocessItems, List.map_cons, List.mem_cons] at hx
      rcases hx with rfl | hx
      · exact hfresh
      · intro hxe
        exact (hout x hx) (List.mem_cons_of_mem _ hxe)

/-- C7: two catalog records with identical brand and name processed in
one `preprocess_for_rag` snapshot (of at most 1000 records, so that the
bounded collision loop never reaches its MD5 fallback) receive two
distinct non-empty identifiers, the later one carrying an incrementing
numeric suffix appended to the shared sanitized base id, and the
identifiers of the returned snapshot are pairwise distinct. -/
theorem c7_unique_ids (md5hex : Str → Str) (bst : Mattress → Str)
    (l₁ l₂ l₃ : List Mattress) (r₁ r₂ : Mattress)
    (hlen : l₁.length + l₂.length + l₃.length + 2 ≤ 1000)
    (hbrand : r₁.brand = r₂.brand) (hname : r₁.name = r₂.name) :
    ∃ pre mid post i₁ i₂,
      preprocessForRag md5hex bst (l₁ ++ r₁ :: (l₂ ++ r₂ :: l₃)) =
        pre ++ i₁ :: (mid ++ i₂ :: post) ∧
      pre.length = l₁.length ∧ mid.length = l₂.length ∧
      i₁.itemId ≠ i₂.itemId ∧ i₁.itemId ≠ [] ∧ i₂.itemId ≠ [] ∧
      (∃ k, 1 ≤ k ∧
        i₂.itemId = sanitizeId md5hex (baseId r₂) ++ '_' :: natToDec k) ∧
      ((preprocessForRag md5hex bst (l₁ ++ r₁ :: (l₂ ++ r₂ :: l₃))).map
        (·.itemId)).Nodup := by
  set ms := l₁ ++ r₁ :: (l₂ ++ r₂ :: l₃) with hms
  have hms_len : ms.length = l₁.length + l₂.length + l₃.length + 2 := by
    simp [hms]
    omega
  have hms_ne : ms ≠ [] := by
    rw [hms]
    intro h
    rcases List.append_eq_nil.mp h with ⟨-, h2⟩
    exact List.cons_ne_nil _ _ h2
  have htot : (0:Nat) + ms.length ≤ 1000 := by omega
  have hnd := (preprocessItems_ids_fresh md5hex bst ms [] (by simpa using htot)).1
  have hout : preprocessForRag md5hex bst ms = preprocessItems md5hex bst [] ms := by
    simp only [preprocessForRag, if_neg hms_ne, if_pos hnd]
  set ex₁ := existingAfter md5hex [] l₁ with hex₁
  have hex₁_len : ex₁.length = l₁.length := by
    rw [hex₁, existingAfter_length]
    simp
  set i₁ := genUniqueId md5hex r₁ ex₁ with hi₁
  set ex₂ := existingAfter md5hex (i₁ :: ex₁) l₂ with hex₂
  have hex₂_len : ex₂.length = l₁.length + 1 + l₂.length := by
    rw [hex₂, existingAfter_length]
    simp [hex₁_len]
  have hex₁_small : ex₁.length ≤ 999 := by omega
  have hex₂_small : ex₂.length ≤ 999 := by omega
  set i₂ := genUniqueId md5hex r₂ ex₂ with hi₂
  have hdec : preprocessItems md5hex bst [] ms =
      preprocessItems md5hex bst [] l₁ ++
        (⟨i₁, bst r₁, mkMetadata r₁⟩ ::
          (preprocessItems md5hex bst (i₁ :: ex₁) l₂ ++
            (⟨i₂, bst r₂, mkMetadata r₂⟩ ::
              preprocessItems md5hex bst (i₂ :: ex₂) l₃))) := by
    rw [hms, preprocessItems_append, ← hex₁]
    congr 1
    simp only [preprocessItems]
    rw [← hi₁, preprocessItems_append, ← hex₂]
    congr 2
  have hbb : baseId r₂ = baseId r₁ := by
    simp only [baseId, hbrand, hname]
  have hbase : sanitizeId md5hex (baseId r₂) ∈ ex₂ := by
    rw [hbb, hex₂]
    exact mem_existingAfter md5hex l₂ _ (base_mem_after_assign md5hex r₁ ex₁)
  obtain ⟨k, hk1, hk2, hksuf⟩ := genUniqueId_suffix md5hex r₂ ex₂ hex₂_small hbase
  have hi₁_mem : i₁ ∈ ex₂ := by
    rw [hex₂]
    exact mem_existingAfter md5hex l₂ _ (List.mem_cons_self _ _)
  have hi₂_out : i₂ ∉ ex₂ := (genUniqueId_fresh_shape md5hex r₂ ex₂ hex₂_small).1
  have hne12 : i₁ ≠ i₂ := fun h => hi₂_out (h ▸ hi₁_mem)
  refine ⟨preprocessItems md5hex bst [] l₁,
    preprocessItems md5hex bst (i₁ :: ex₁) l₂,
    preprocessItems md5hex bst (i₂ :: ex₂) l₃,
    ⟨i₁, bst r₁, mkMetadata r₁⟩, ⟨i₂, bst r₂, mkMetadata r₂⟩,
    by rw [hout, hdec],
    preprocessItems_length md5hex bst l₁ [],
    preprocessItems_length md5hex bst l₂ _,
    hne12,
    genUniqueId_ne_nil md5hex r₁ ex₁ hex₁_small,
    genUniqueId_ne_nil md5hex r₂ ex₂ hex₂_small,
    ⟨k, hk1, hksuf⟩,
    by rw [hout]; exact hnd⟩

/-- Witness for C7: the two-record catalog with brand `acme` and name
`dream` receives the ids `mattress_acme_dream` and
`mattress_acme_dream_1`. -/
theorem c7_unique_ids_witness :
    ((([] : List Mattress).length + ([] : List Mattress).length +
        ([] : List Mattress).length + 2 ≤ 1000) ∧
      ("acme".toList = "acme".toList) ∧ ("dream".toList = "dream".toList)) ∧
    (∃ pre mid post i₁ i₂,
      preprocessForRag (fun _ => []) (fun _ => [])
          ([] ++ (⟨"dream".toList, "acme".toList, [], 0, 0, [], [], []⟩ : Mattress) ::
            ([] ++ (⟨"dream".toList, "acme".toList, [], 0, 0, [], [], []⟩ : Mattress) :: [])) =
        pre ++ i₁ :: (mid ++ i₂ :: post) ∧
      pre.length = ([] : List Mattress).length ∧
      mid.length = ([] : List Mattress).length ∧
      i₁.itemId ≠ i₂.itemId ∧ i₁.itemId ≠ [] ∧ i₂.itemId ≠ [] ∧
      (∃ k, 1 ≤ k ∧
        i₂.itemId = sanitizeId (fun _ => [])
          (baseId ⟨"dream".toList, "acme".toList, [], 0, 0, [], [], []⟩) ++
          '_' :: natToDec k) ∧
      ((preprocessForRag (fun _ => []) (fun _ => [])
          ([] ++ (⟨"dream".toList, "acme".toList, [], 0, 0, [], [], []⟩ : Mattress) ::
            ([] ++ (⟨"dream".toList, "acme".toList, [], 0, 0, [], [], []⟩ : Mattress) :: []))).map
        (·.itemId)).Nodup) := by
  refine ⟨⟨by norm_num, rfl, rfl⟩, ?_⟩
  exact c7_unique_ids (fun _ => []) (fun _ => []) [] [] []
    ⟨"dream".toList, "acme".toList, [], 0, 0, [], [], []⟩
    ⟨"dream".toList, "acme".toList, [], 0, 0, [], [], []⟩
    (by norm_num) rfl rfl

theorem genLoop_step {md5hex : Str → Str} {sanitized baseStr : Str}
    {existing : List Str} {c : Nat} {cur : Str} {fuel : Nat}
    (hmem : cur ∈ existing) (hc : ¬ 1000 < c + 1) :
    genLoop md5hex sanitized baseStr existing c cur (fuel + 1) =
      genLoop md5hex sanitized baseStr existing (c + 1)
        (sanitized ++ '_' :: natToDec c) fuel := by
  simp [genLoop, hmem, hc]
/-! ## Claim C10 -/

/-- C10: `get_mattress_by_id` regenerates every record's id against an
empty existing-id set, so for a catalog of two records with identical
brand and name, whose snapshot ids are the base id and the base id with
the `_1` suffix, looking up the suffixed id returns `None`, while
looking up the unsuffixed base id returns the first record. -/
theorem c10_lookup_misses_suffixed_id (md5hex : Str → Str)
    (bst : Mattress → Str) (r₁ r₂ : Mattress)
    (hbrand : r₁.brand = r₂.brand) (hname : r₁.name = r₂.name) :
    (preprocessForRag md5hex bst [r₁, r₂]).map (·.itemId) =
      [sanitizeId md5hex (baseId r₁),
        sanitizeId md5hex (baseId r₁) ++ '_' :: natToDec 1] ∧
    getMattressById md5hex [r₁, r₂]
      (sanitizeId md5hex (baseId r₁) ++ '_' :: natToDec 1) = none ∧
    getMattressById md5hex [r₁, r₂] (sanitizeId md5hex (baseId r₁)) =
      some r₁ := by
  have hbb : baseId r₂ = baseId r₁ := by
    simp only [baseId, hbrand, hname]
  set b := sanitizeId md5hex (baseId r₁) with hb
  have hs2 : sanitizeId md5hex (baseId r₂) = b := by rw [hbb]
  have hg1 : genUniqueId md5hex r₁ [] = b := by
    rw [hb]
    exact genLoop_eq_of_not_mem (by simp) 1001
  have hg2e : genUniqueId md5hex r₂ [] = b := by
    rw [show genUniqueId md5hex r₂ [] =
      genLoop md5hex (sanitizeId md5hex (baseId r₂)) (baseId r₂) [] 1
        (sanitizeId md5hex (baseId r₂)) 1001 from rfl]
    rw [genLoop_eq_of_not_mem (by simp) 1001]
    exact hs2
  have hbne : b ++ '_' :: natToDec 1 ≠ b := self_ne_append_cons b '_' (natToDec 1)
  have hg2 : genUniqueId md5hex r₂ [b] = b ++ '_' :: natToDec 1 := by
    rw [show genUniqueId md5hex r₂ [b] =
      genLoop md5hex (sanitizeId md5hex (baseId r₂)) (baseId r₂) [b] 1
        (sanitizeId md5hex (baseId r₂)) 1001 from rfl]
    rw [hs2]
    rw [show (1001 : Nat) = 1000 + 1 from rfl]
    rw [genLoop_step (List.mem_singleton.mpr rfl) (by norm_num)]
    exact genLoop_eq_of_not_mem (by simpa using hbne) 1000
  have hitems : preprocessItems md5hex bst [] [r₁, r₂] =
      [⟨b, bst r₁, mkMetadata r₁⟩,
        ⟨b ++ '_' :: natToDec 1, bst r₂, mkMetadata r₂⟩] := by
    simp only [preprocessItems, hg1]
    rw [hg2]
  have hnd : ((preprocessItems md5hex bst [] [r₁, r₂]).map (·.itemId)).Nodup := by
    rw [hitems]
    simp only [List.map_cons, List.map_nil, List.nodup_cons, List.mem_singleton,
      List.not_mem_nil, not_false_iff, List.nodup_nil, and_true]
    intro h
    exact hbne h.symm
  have hout : preprocessForRag md5hex bst [r₁, r₂] =
      [⟨b, bst r₁, mkMetadata r₁⟩,
        ⟨b ++ '_' :: natToDec 1, bst r₂, mkMetadata r₂⟩] := by
    simp only [preprocessForRag,
      if_neg (show ¬ ([r₁, r₂] : List Mattress) = [] by simp), if_pos hnd]
    exact hitems
  refine ⟨?_, ?_, ?_⟩
  · rw [hout]
    simp
  · simp only [getMattressById]
    rw [List.find?_cons_of_neg, List.find?_cons_of_neg]
    · rfl
    · simp only [decide_eq_true_eq, hg2e]
      intro h
      exact hbne h.symm
    · simp only [decide_eq_true_eq, hg1]
      intro h
      exact hbne h.symm
  · simp only [getMattressById]
    rw [List.find?_cons_of_pos]
    simp only [decide_eq_true_eq, hg1]

/-- Witness for C10 on the two-record `acme` / `dream` catalog. -/
theorem c10_lookup_misses_suffixed_id_witness :
    (((⟨"dream".toList, "acme".toList, [], 0, 0, [], [], []⟩ : Mattress).brand =
        (⟨"dream".toList, "acme".toList, [], 0, 0, [], [], []⟩ : Mattress).brand) ∧
      ((⟨"dream".toList, "acme".toList, [], 0, 0, [], [], []⟩ : Mattress).name =
        (⟨"dream".toList, "acme".toList, [], 0, 0, [], [], []⟩ : Mattress).name)) ∧
    ((preprocessForRag (fun _ => []) (fun _ => [])
        [⟨"dream".toList, "acme".toList, [], 0, 0, [], [], []⟩,
          ⟨"dream".toList, "acme".toList, [], 0, 0, [], [], []⟩]).map (·.itemId) =
      [sanitizeId (fun _ => [])
          (baseId ⟨"dream".toList, "acme".toList, [], 0, 0, [], [], []⟩),
        sanitizeId (fun _ => [])
          (baseId ⟨"dream".toList, "acme".toList, [], 0, 0, [], [], []⟩) ++
          '_' :: natToDec 1] ∧
    getMattressById (fun _ => [])
      [⟨"dream".toList, "acme".toList, [], 0, 0, [], [], []⟩,
        ⟨"dream".toList, "acme".toList, [], 0, 0, [], [], []⟩]
      (sanitizeId (fun _ => [])
        (baseId ⟨"dream".toList, "acme".toList, [], 0, 0, [], [], []⟩) ++
        '_' :: natToDec 1) = none ∧
    getMattressById (fun _ => [])
      [⟨"dream".toList, "acme".toList, [], 0, 0, [], [], []⟩,
        ⟨"dream".toList, "acme".toList, [], 0, 0, [], [], []⟩]
      (sanitizeId (fun _ => [])
        (baseId ⟨"dream".toList, "acme".toList, [], 0, 0, [], [], []⟩)) =
      some ⟨"dream".toList, "acme".toList, [], 0, 0, [], [], []⟩) :=
  ⟨⟨rfl, rfl⟩, c10_lookup_misses_suffixed_id (fun _ => []) (fun _ => [])
    ⟨"dream".toList, "acme".toList, [], 0, 0, [], [], []⟩
    ⟨"dream".toList, "acme".toList, [], 0, 0, [], [], []⟩ rfl rfl⟩
